import Mathlib

/-!
Verification of the core session/audio-streaming logic of the voice research
assistant application (React component in `src/unnamed/part_002`, shared types in
`src/types.ts`).  The mutable refs of the component (`nextStartTimeRef`,
`audioSourcesRef`, `currentInputTranscriptionRef`, `currentOutputTranscriptionRef`,
`audioContextInRef`, `audioContextOutRef`, `sessionPromiseRef`) are embedded as
explicit state records, and each event handler of the component becomes a pure
state-transition function.  Timestamps and durations are modelled as rationals,
playback handles as natural numbers, and externally visible side effects
(stopping a source, closing a context, closing the connection) as explicit
action lists returned by the transition functions.
-/

namespace VoiceAssistant

/-- Role of a transcript entry, as in `types.ts` (`'user' | 'assistant'`). -/
inductive Role where
  | user
  | assistant
deriving DecidableEq, Repr

/-- Transcript entry, as in `types.ts`.  The id produced by
`Math.random().toString(36)` is modelled by a fresh-id counter (a `Nat` drawn
from the aggregator state), and the `Date` timestamp by a `Nat` supplied by the
caller. -/
structure TranscriptionEntry where
  id : Nat
  role : Role
  text : String
  timestamp : Nat
deriving DecidableEq, Repr

/-- Citation source, as in `types.ts`: a title and a URI. -/
structure GroundingSource where
  title : String
  uri : String
deriving DecidableEq, Repr

/-! Playback scheduler (audio-output branch of `onmessage`, lines 72-93). -/

/-- Playback scheduler state: the `nextStartTimeRef` cursor and the
`audioSourcesRef` set of in-flight playback handles (modelled as a list of
handle ids in insertion order). -/
structure SchedState where
  cursor : ℚ
  active : List Nat
deriving DecidableEq, Repr

/-- Audio-output branch of `onmessage` (lines 87-92): compute
`startAt = max nextStartTime currentTime`, start the source at `startAt`,
advance the cursor by the buffer duration, and register the handle in the
active set.  Returns the start time together with the new state. -/
def scheduleChunk (st : SchedState) (now dur : ℚ) (h : Nat) : ℚ × SchedState :=
  let startAt := max st.cursor now
  (startAt, { cursor := startAt + dur, active := st.active ++ [h] })

/-- Iterated scheduling of a list of chunks `(arrival clock time, duration,
handle)`, returning the list of start times and the final state. -/
def scheduleChunks (st : SchedState) : List (ℚ × ℚ × Nat) → List ℚ × SchedState
  | [] => ([], st)
  | (now, d, h) :: rest =>
    let r := scheduleChunk st now d h
    let rr := scheduleChunks r.2 rest
    (r.1 :: rr.1, rr.2)

/-- In-order arrival hypothesis: starting from cursor value `c`, every chunk
after the first arrives (its output-clock time is observed) strictly before the
previously scheduled chunk's predicted end, which is exactly the cursor value
after scheduling that chunk. -/
def arrivesBeforePredictedEnd (c : ℚ) : List (ℚ × ℚ × Nat) → Prop
  | [] => True
  | (now, d, _) :: rest =>
    (∀ p ∈ rest.head?, p.1 < max c now + d) ∧
      arrivesBeforePredictedEnd (max c now + d) rest

/-- Interrupted branch of `onmessage` (lines 96-100): force-stop every source
in the active set, clear the set, and reset the cursor to zero.  Returns the
new state together with the list of handles that were force-stopped. -/
def interruptStep (st : SchedState) : SchedState × List Nat :=
  ({ cursor := 0, active := [] }, st.active)

/-! Transcription aggregator (transcription and turn-complete branches of
`onmessage`, lines 103-130). -/

/-- Aggregator state: the two pending-text refs, the append-only transcript
list, and the fresh-id counter modelling `Math.random().toString(36)`. -/
structure AggState where
  inputBuf : String
  outputBuf : String
  entries : List TranscriptionEntry
  nextId : Nat
deriving DecidableEq, Repr

/-- Input-transcription branch (line 104): append the fragment to the pending
input buffer. -/
def appendInputFragment (st : AggState) (t : String) : AggState :=
  { st with inputBuf := st.inputBuf ++ t }

/-- Output-transcription branch (line 107): append the fragment to the pending
output buffer. -/
def appendOutputFragment (st : AggState) (t : String) : AggState :=
  { st with outputBuf := st.outputBuf ++ t }

/-- Concatenation of a list of text fragments in arrival order. -/
def joinFrags : List String → String
  | [] => ""
  | f :: rest => f ++ joinFrags rest

/-- Turn-complete branch (lines 111-130): if the pending input buffer is
non-empty, append a user entry; then, if the pending output buffer is
non-empty, append an assistant entry; finally clear both buffers. -/
def turnCompleteStep (st : AggState) (nowT : Nat) : AggState :=
  let st1 :=
    if st.inputBuf = "" then st
    else { st with
            entries := st.entries ++ [⟨st.nextId, Role.user, st.inputBuf, nowT⟩],
            nextId := st.nextId + 1 }
  let st2 :=
    if st1.outputBuf = "" then st1
    else { st1 with
            entries := st1.entries ++ [⟨st1.nextId, Role.assistant, st1.outputBuf, nowT⟩],
            nextId := st1.nextId + 1 }
  { st2 with inputBuf := "", outputBuf := "" }

/-! Mute gating (scriptProcessor.onaudioprocess, lines 57-64, and the mute
toggle button, line 271).  JavaScript closure semantics are embedded
explicitly: the `onaudioprocess` handler installed in `onopen` closes over the
`isMuted` binding of the render in which `startSession` was invoked, so the
session record stores the mute value captured at session start.  A later
`setIsMuted` creates a fresh binding for subsequent renders and does not change
the captured one. -/

/-- Microphone pipeline created at session open: it holds the `isMuted` value
captured by the `onaudioprocess` closure. -/
structure MicSession where
  capturedMuted : Bool
deriving DecidableEq, Repr

/-- User-interface state relevant to mute gating: the `isActive` and `isMuted`
React state plus the (at most one) open microphone session. -/
structure AppUIState where
  isActive : Bool
  isMuted : Bool
  session : Option MicSession
deriving DecidableEq, Repr

/-- Session open (the `onopen` callback, lines 53-69): wires the script
processor, whose handler captures the current `isMuted` binding, and sets the
active flag. -/
def openSession (st : AppUIState) : AppUIState :=
  { st with isActive := true, session := some ⟨st.isMuted⟩ }

/-- Mute toggle button handler (line 271): flips the `isMuted` React state and
nothing else. -/
def toggleMute (st : AppUIState) : AppUIState :=
  { st with isMuted := !st.isMuted }

/-- Whether a captured microphone frame is encoded and sent
(`scriptProcessor.onaudioprocess`, lines 57-64): the handler returns early when
the `isMuted` binding it closed over at session start is true; otherwise the
frame is encoded with `createBlob` and sent. -/
def frameIsSent (st : AppUIState) : Bool :=
  match st.session with
  | none => false
  | some s => !s.capturedMuted

/-! Session teardown (`stopSession`, lines 25-34, and the `onerror` and
`onclose` callbacks, lines 153-161). -/

/-- Externally visible teardown actions issued by the component. -/
inductive TeardownAction where
  | closeContextIn
  | closeContextOut
  | stopSource (h : Nat)
  | stopTrack
  | closeConnection
deriving DecidableEq, Repr

/-- Resource state held in the component refs: the active flag, the
`audioStream` React state (holding the microphone track id), the two audio
context refs, the active playback sources, and the session-promise ref. -/
structure ResourceState where
  isActive : Bool
  audioStream : Option Nat
  ctxIn : Option Nat
  ctxOut : Option Nat
  activeSources : List Nat
  sessionConn : Option Nat
deriving DecidableEq, Repr

/-- Embedding of `stopSession` (lines 25-34): clear the active flag, drop the
stream reference, call `close()` on each audio context whose ref is non-null
(the refs themselves are not cleared), stop every active source and clear the
set, and close the remote session, nulling its ref.  The microphone track is
never stopped.  Returns the new state and the actions issued, in program
order. -/
def stopSession (st : ResourceState) : ResourceState × List TeardownAction :=
  let a1 : List TeardownAction :=
    match st.ctxIn with | some _ => [.closeContextIn] | none => []
  let a2 : List TeardownAction :=
    match st.ctxOut with | some _ => [.closeContextOut] | none => []
  let a3 := st.activeSources.map TeardownAction.stopSource
  let a4 : List TeardownAction :=
    match st.sessionConn with | some _ => [.closeConnection] | none => []
  ({ st with isActive := false, audioStream := none,
             activeSources := [], sessionConn := none },
   a1 ++ a2 ++ a3 ++ a4)

/-- Embedding of the `onclose` callback (lines 158-161): it only clears the
active flag; no resource is released and no action is issued. -/
def oncloseStep (st : ResourceState) : ResourceState × List TeardownAction :=
  ({ st with isActive := false }, [])

/-- Embedding of the `onerror` callback (lines 153-157): it surfaces an error
message and runs `stopSession`; only the resource effect is modelled. -/
def onerrorStep (st : ResourceState) : ResourceState × List TeardownAction :=
  stopSession st

/-- Concrete resource state of a running session: stream, both contexts, one
scheduled source and an open connection. -/
def startedState : ResourceState :=
  { isActive := true, audioStream := some 1, ctxIn := some 2, ctxOut := some 3,
    activeSources := [4], sessionConn := some 5 }

/-! Source deduplication (`setGroundingSources`, lines 144-150).  The update
computes `combined = prev ++ newSources` and returns
`Array.from(new Map(combined.map(s => [s.uri, s])).values())`.  A JavaScript
`Map` keeps keys in first-insertion order and `set` on an existing key updates
the value in place, so the construction is embedded as a fold of an in-place
association-list insertion. -/

/-- Keys of an association list, in order. -/
def keysOf (m : List (String × GroundingSource)) : List String :=
  m.map Prod.fst

/-- One step of the JavaScript `Map` construction, `map.set(s.uri, s)`: if the
key is already present the stored value is updated in place (key order
unchanged), otherwise the pair is appended at the end. -/
def insertPair (m : List (String × GroundingSource)) (s : GroundingSource) :
    List (String × GroundingSource) :=
  if s.uri ∈ keysOf m then
    m.map (fun p => if p.1 = s.uri then (s.uri, s) else p)
  else m ++ [(s.uri, s)]

/-- The `Map` built from `combined.map(s => [s.uri, s])`, as an association
list in key-insertion order. -/
def buildMap (l : List GroundingSource) : List (String × GroundingSource) :=
  l.foldl insertPair []

/-- Values of the map in key order: `Array.from(map.values())`. -/
def dedupeByUri (l : List GroundingSource) : List GroundingSource :=
  (buildMap l).map Prod.snd

/-- Embedding of the `setGroundingSources` updater (lines 145-149). -/
def mergeSources (prev ns : List GroundingSource) : List GroundingSource :=
  dedupeByUri (prev ++ ns)

/-- Recursive lookup in an association list (first pair with the given key). -/
def lookupKey : List (String × GroundingSource) → String → Option GroundingSource
  | [], _ => none
  | p :: rest, k => if p.1 = k then some p.2 else lookupKey rest k

/-- First source with the given URI in a source list. -/
def findByUri : List GroundingSource → String → Option GroundingSource
  | [], _ => none
  | s :: rest, k => if s.uri = k then some s else findByUri rest k

/-- Last source with the given URI in a source list. -/
def lastOccur : List GroundingSource → String → Option GroundingSource
  | [], _ => none
  | s :: rest, k =>
    match lastOccur rest k with
    | some v => some v
    | none => if s.uri = k then some s else none

/-- First-occurrence order of a key list: each key appears once, at the
position of its first occurrence. -/
def keyOrder (ks : List String) : List String :=
  ks.foldl (fun acc k => if k ∈ acc then acc else acc ++ [k]) []

/-! Grounding-chunk filtering (groundingMetadata branch of `onmessage`,
lines 133-151). -/

/-- Web metadata of a grounding chunk: an optional title (the JS value may be
absent or the empty string) and a URI. -/
structure WebInfo where
  title : Option String
  uri : String
deriving DecidableEq, Repr

/-- Grounding chunk: only chunks carrying a `web` field contribute sources. -/
structure GroundingChunk where
  web : Option WebInfo
deriving DecidableEq, Repr

/-- Title defaulting via the JS truthiness check
`chunk.web.title || 'Untitled Source'`: a missing or empty title becomes
`"Untitled Source"`. -/
def webTitle : Option String → String
  | none => "Untitled Source"
  | some t => if t = "" then "Untitled Source" else t

/-- One step of the `newSources` accumulation (lines 136-143): a chunk without
a `web` field is skipped; otherwise a source with the defaulted title and the
unchanged URI is pushed. -/
def chunkStep (acc : List GroundingSource) (c : GroundingChunk) :
    List GroundingSource :=
  match c.web with
  | some w => acc ++ [⟨webTitle w.title, w.uri⟩]
  | none => acc

/-- The `newSources` list extracted from a message's grounding chunks. -/
def chunkSources (chunks : List GroundingChunk) : List GroundingSource :=
  chunks.foldl chunkStep []

/-- Grounding branch of `onmessage` (lines 133-151): the citation state is
updated only when at least one web chunk was found
(`if (newSources.length > 0)`). -/
def groundingStep (prev : List GroundingSource) (chunks : List GroundingChunk) :
    List GroundingSource :=
  let ns := chunkSources chunks
  if ns = [] then prev else mergeSources prev ns

/-! PCM codec.  The functions `encode`, `decode`, `decodeAudioData` and
`createBlob` are imported from `./utils`, a module that is not part of the
source tree; they are modelled from the spec. -/

/-- Modelled from the spec: the per-sample half of `encodeFrame` from the
missing `./utils` module, which "converts each sample to a signed 16-bit
integer by clamping to [-1,1] and scaling to the 16-bit signed range".  The
scaled value is truncated to an integer and kept inside the signed 16-bit
range. -/
def encodeSample (x : ℚ) : Int :=
  max (-32768) (min 32767 ⌊max (-1) (min 1 x) * 32768⌋)

/-- Modelled from the spec: the per-sample half of `decodeToBuffer` from the
missing `./utils` module, which "interprets bytes as 16-bit PCM" and "rescales
to floating point in [-1,1]". -/
def decodeSample (i : Int) : ℚ :=
  (i : ℚ) / 32768

/-- Modelled from the spec: `encodeFrame` maps the sample conversion over the
frame.  Deterministic and stateless by construction. -/
def encodeFrame (samples : List ℚ) : List Int :=
  samples.map encodeSample

/-- Modelled from the spec: `decodeToBuffer` maps the rescaling over the 16-bit
samples. -/
def decodeToBuffer (bytes : List Int) : List ℚ :=
  bytes.map decodeSample

/-! Theorems. -/

/-- Start times of consecutively scheduled chunks form a gapless chain when
every chunk after the first arrives before the previous chunk's predicted
end. -/
theorem scheduleChunks_starts_chain (st : SchedState) (chunks : List (ℚ × ℚ × Nat))
    (hord : arrivesBeforePredictedEnd st.cursor chunks) :
    List.Chain' (fun a b => b.1 = a.1 + a.2)
      ((scheduleChunks st chunks).1.zip (chunks.map fun x => x.2.1)) := by
  induction chunks generalizing st with
  | nil => simp [scheduleChunks]
  | cons x rest ih =>
    obtain ⟨now, d, hh⟩ := x
    obtain ⟨hhead, htail⟩ := hord
    have ihr := ih { cursor := max st.cursor now + d, active := st.active ++ [hh] }
      (by simpa using htail)
    cases rest with
    | nil => simp [scheduleChunks, scheduleChunk]
    | cons y r2 =>
      obtain ⟨n2, d2, h2⟩ := y
      have hn2 : n2 < max st.cursor now + d := by
        have := hhead (n2, d2, h2) (by simp)
        simpa using this
      simp only [scheduleChunks, scheduleChunk, List.map_cons, List.zip_cons_cons,
        List.chain'_cons] at ihr ⊢
      refine ⟨?_, ?_⟩
      · simp [max_eq_left hn2.le]
      · simpa [max_eq_left hn2.le] using ihr

/-- C1: gapless playback scheduling.  For any initial cursor `c` and any
sequence of audio chunks processed in order, with every chunk after the first
arriving strictly before the previously scheduled chunk's predicted end, the
produced start times satisfy `start[i+1] = start[i] + d[i]` (no gap, no
overlap); moreover each scheduling step starts the chunk at
`max cursor now`, advances the cursor by exactly the chunk's duration, and
never decreases the cursor. -/
theorem C1_gapless_scheduling (c : ℚ) (act : List Nat) (chunks : List (ℚ × ℚ × Nat))
    (st : SchedState) (now dur : ℚ) (h : Nat)
    (hord : arrivesBeforePredictedEnd c chunks) (hdur : 0 ≤ dur) :
    List.Chain' (fun a b => b.1 = a.1 + a.2)
      ((scheduleChunks ⟨c, act⟩ chunks).1.zip (chunks.map fun x => x.2.1))
    ∧ (scheduleChunk st now dur h).1 = max st.cursor now
    ∧ (scheduleChunk st now dur h).2.cursor = max st.cursor now + dur
    ∧ st.cursor ≤ (scheduleChunk st now dur h).2.cursor := by
  refine ⟨scheduleChunks_starts_chain ⟨c, act⟩ chunks hord, rfl, rfl, ?_⟩
  have h1 : st.cursor ≤ max st.cursor now := le_max_left _ _
  have h2 : max st.cursor now ≤ max st.cursor now + dur := by linarith
  exact le_trans h1 h2

/-- Witness for C1 at a concrete two-chunk run. -/
theorem C1_gapless_scheduling_witness :
    List.Chain' (fun a b => b.1 = a.1 + a.2)
      ((scheduleChunks ⟨0, []⟩ [((0 : ℚ), (1 : ℚ), 10), (1/2, 2, 11)]).1.zip
        ([((0 : ℚ), (1 : ℚ), 10), (1/2, 2, 11)].map fun x => x.2.1))
    ∧ (scheduleChunk ⟨5, [9]⟩ 2 3 7).1 = max (5 : ℚ) 2
    ∧ (scheduleChunk ⟨5, [9]⟩ 2 3 7).2.cursor = max (5 : ℚ) 2 + 3
    ∧ (5 : ℚ) ≤ (scheduleChunk ⟨5, [9]⟩ 2 3 7).2.cursor :=
  C1_gapless_scheduling 0 [] [(0, 1, 10), (1/2, 2, 11)] ⟨5, [9]⟩ 2 3 7
    (by
      refine ⟨?_, ?_, trivial⟩
      · intro p hp
        simp only [List.head?_cons, Option.mem_def, Option.some.injEq] at hp
        subst hp
        norm_num
      · simp [Option.mem_def])
    (by norm_num)

/-- C2: interruption reset.  After the interrupted branch runs, the active set
is empty, every previously active handle was force-stopped, the cursor is
zero, and the next scheduled chunk starts at the current output-clock value
(for any non-negative clock value) rather than at the pre-interruption
cursor. -/
theorem C2_interruption_reset (st : SchedState) (now dur : ℚ) (h : Nat)
    (hnow : 0 ≤ now) :
    (interruptStep st).1.active = []
    ∧ (interruptStep st).2 = st.active
    ∧ (interruptStep st).1.cursor = 0
    ∧ (scheduleChunk (interruptStep st).1 now dur h).1 = now := by
  refine ⟨rfl, rfl, rfl, ?_⟩
  simp [interruptStep, scheduleChunk, max_eq_right hnow]

/-- Witness for C2 at a concrete interrupted state. -/
theorem C2_interruption_reset_witness :
    (interruptStep ⟨7, [1, 2]⟩).1.active = []
    ∧ (interruptStep ⟨7, [1, 2]⟩).2 = [1, 2]
    ∧ (interruptStep ⟨7, [1, 2]⟩).1.cursor = 0
    ∧ (scheduleChunk (interruptStep ⟨7, [1, 2]⟩).1 4 1 3).1 = 4 :=
  C2_interruption_reset ⟨7, [1, 2]⟩ 4 1 3 (by norm_num)

/-- C3: turn aggregation.  Processing a turn-complete signal appends, in the
fixed order user then assistant, one `TranscriptionEntry` per role whose
pending buffer is non-empty (with a fresh id from the id supply, that role,
the accumulated text, and the supplied timestamp), then clears both pending
buffers; with both buffers empty nothing is appended.  Appending fragments
concatenates them in order, so appending "Hel" then "lo" for user and
completing the turn yields exactly one user entry with text "Hello", and a
second turn-complete with no new fragments yields zero further entries. -/
theorem C3_turn_aggregation (st st0 : AggState) (nowT : Nat) (frags : List String) :
    (turnCompleteStep st nowT).entries =
      st.entries
        ++ (if st.inputBuf = "" then []
            else [⟨st.nextId, Role.user, st.inputBuf, nowT⟩])
        ++ (if st.outputBuf = "" then []
            else [⟨(if st.inputBuf = "" then st.nextId else st.nextId + 1),
                   Role.assistant, st.outputBuf, nowT⟩])
    ∧ (turnCompleteStep st nowT).inputBuf = ""
    ∧ (turnCompleteStep st nowT).outputBuf = ""
    ∧ (turnCompleteStep st nowT).nextId =
        st.nextId + (if st.inputBuf = "" then 0 else 1)
          + (if st.outputBuf = "" then 0 else 1)
    ∧ (List.foldl appendInputFragment st0 frags).inputBuf
        = st0.inputBuf ++ joinFrags frags
    ∧ (turnCompleteStep
        (appendInputFragment (appendInputFragment ⟨"", "", [], 0⟩ "Hel") "lo") 5).entries
        = [⟨0, Role.user, "Hello", 5⟩]
    ∧ (turnCompleteStep (turnCompleteStep
        (appendInputFragment (appendInputFragment ⟨"", "", [], 0⟩ "Hel") "lo") 5) 6).entries
        = [⟨0, Role.user, "Hello", 5⟩] := by
  refine ⟨?_, ?_, ?_, ?_, ?_, by decide, by decide⟩
  · unfold turnCompleteStep
    split_ifs <;> simp_all
  · unfold turnCompleteStep
    split_ifs <;> simp_all
  · unfold turnCompleteStep
    split_ifs <;> simp_all
  · unfold turnCompleteStep
    split_ifs <;> simp_all
  · induction frags generalizing st0 with
    | nil => simp [joinFrags]
    | cons f rest ih =>
      simp only [List.foldl_cons, ih, appendInputFragment, joinFrags]
      simp [String.append_assoc]

/-- C4: the claim that toggling mute gates subsequently captured frames fails
on the code.  The `onaudioprocess` handler closes over the `isMuted` binding
of the render in which the session was started; a later mute toggle creates a
new binding and leaves the captured one false, so a frame captured while the
app state says muted is still sent. -/
theorem C4_stale_mute_closure :
    toggleMute (openSession ⟨false, false, none⟩)
      = { isActive := true, isMuted := true, session := some ⟨false⟩ }
    ∧ (toggleMute (openSession ⟨false, false, none⟩)).isMuted = true
    ∧ frameIsSent (toggleMute (openSession ⟨false, false, none⟩)) = true
    ∧ (toggleMute (openSession ⟨false, false, none⟩)).isActive
        = (openSession ⟨false, false, none⟩).isActive := by
  decide

/-- C5 counterexample: starting from a fully started session, the teardown
issued by `stopSession` never stops the microphone track, and a second
`stopSession` call is not a no-op — it issues `close()` on both audio contexts
again, because the context refs are not cleared. -/
theorem C5_counterexample :
    ((stopSession startedState).2.filter
        (fun a => a == TeardownAction.stopTrack)) = []
    ∧ (stopSession (stopSession startedState).1).2
        = [TeardownAction.closeContextIn, TeardownAction.closeContextOut] := by
  decide

/-- C5 amended: `stopSession` marks the session inactive, drops the stream
reference (without ever stopping the microphone track), issues `close()` on
each audio context whose ref is set while leaving the refs in place, stops and
clears all playback handles, and closes and clears the remote connection; the
handle stops and the connection close are not repeated by a second call, but
the context closes are issued again on every call. -/
theorem C5_teardown_amended (st : ResourceState) :
    (stopSession st).1.isActive = false
    ∧ (stopSession st).1.audioStream = none
    ∧ (stopSession st).1.activeSources = []
    ∧ (stopSession st).1.sessionConn = none
    ∧ (stopSession st).1.ctxIn = st.ctxIn
    ∧ (stopSession st).1.ctxOut = st.ctxOut
    ∧ (stopSession st).2 =
        (match st.ctxIn with | some _ => [TeardownAction.closeContextIn] | none => [])
        ++ (match st.ctxOut with | some _ => [TeardownAction.closeContextOut] | none => [])
        ++ st.activeSources.map TeardownAction.stopSource
        ++ (match st.sessionConn with | some _ => [TeardownAction.closeConnection] | none => [])
    ∧ ((stopSession st).2.filter (fun a => a == TeardownAction.stopTrack)) = []
    ∧ (stopSession (stopSession st).1).2 =
        (match st.ctxIn with | some _ => [TeardownAction.closeContextIn] | none => [])
        ++ (match st.ctxOut with | some _ => [TeardownAction.closeContextOut] | none => []) := by
  rcases hI : st.ctxIn with _ | i <;> rcases hO : st.ctxOut with _ | o <;>
    rcases hC : st.sessionConn with _ | cn <;>
      simp [stopSession, hI, hO, hC, List.filter_map, Function.comp]

/-- C6 counterexample: on a remote-initiated close the `onclose` callback
issues no teardown action and leaves the playback handles, the stream
reference and the connection ref untouched, while a user-initiated
`stopSession` from the same state issues the full teardown sequence. -/
theorem C6_counterexample :
    (oncloseStep startedState).2 = []
    ∧ (oncloseStep startedState).1.activeSources = [4]
    ∧ (oncloseStep startedState).1.sessionConn = some 5
    ∧ (oncloseStep startedState).1.audioStream = some 1
    ∧ (stopSession startedState).2 =
        [TeardownAction.closeContextIn, TeardownAction.closeContextOut,
         TeardownAction.stopSource 4, TeardownAction.closeConnection] := by
  decide

/-- C6 amended: when the remote side closes the connection, the session is
only marked inactive — no resource field changes and no teardown action is
issued; full teardown runs on user stop and on transport error (whose handler
calls `stopSession`). -/
theorem C6_onclose_amended (st : ResourceState) :
    (oncloseStep st).1.isActive = false
    ∧ (oncloseStep st).1.audioStream = st.audioStream
    ∧ (oncloseStep st).1.ctxIn = st.ctxIn
    ∧ (oncloseStep st).1.ctxOut = st.ctxOut
    ∧ (oncloseStep st).1.activeSources = st.activeSources
    ∧ (oncloseStep st).1.sessionConn = st.sessionConn
    ∧ (oncloseStep st).2 = []
    ∧ onerrorStep st = stopSession st := by
  simp [oncloseStep, onerrorStep]

/-- C7 counterexample: merging `[{uri:A,title:X},{uri:B,title:Y}]` with
`[{uri:A,title:Z}]` updates A's title to Z but keeps A at its first-occurrence
position (before B); the claim that the entry's position moves to the later
occurrence would require the result `[{uri:B,title:Y},{uri:A,title:Z}]`
instead. -/
theorem C7_counterexample :
    mergeSources [⟨"X", "A"⟩, ⟨"Y", "B"⟩] [⟨"Z", "A"⟩]
      = [⟨"Z", "A"⟩, ⟨"Y", "B"⟩]
    ∧ (mergeSources [⟨"X", "A"⟩, ⟨"Y", "B"⟩] [⟨"Z", "A"⟩]).map GroundingSource.uri
      = ["A", "B"] := by
  decide

/-! Association-map lemmas for the citation deduplication. -/

/-- Keys after an insertion: unchanged when the key was present, appended
otherwise. -/
theorem keysOf_insertPair (m : List (String × GroundingSource)) (s : GroundingSource) :
    keysOf (insertPair m s) =
      if s.uri ∈ keysOf m then keysOf m else keysOf m ++ [s.uri] := by
  unfold insertPair
  split_ifs with hmem
  · simp only [keysOf, List.map_map]
    apply List.map_congr_left
    intro p _
    by_cases hp : p.1 = s.uri <;> simp [hp]
  · simp [keysOf]

/-- Lookup distributes over append, first list winning. -/
theorem lookupKey_append (m1 m2 : List (String × GroundingSource)) (k : String) :
    lookupKey (m1 ++ m2) k =
      match lookupKey m1 k with
      | some v => some v
      | none => lookupKey m2 k := by
  induction m1 with
  | nil => simp [lookupKey]
  | cons p rest ih =>
    by_cases h : p.1 = k <;> simp [lookupKey, h, ih]

/-- Lookup of an absent key is `none`. -/
theorem lookupKey_eq_none (m : List (String × GroundingSource)) (k : String)
    (h : k ∉ keysOf m) : lookupKey m k = none := by
  induction m with
  | nil => rfl
  | cons p rest ih =>
    simp only [keysOf, List.map_cons, List.mem_cons, not_or] at h
    have hp : p.1 ≠ k := fun e => h.1 e.symm
    simp [lookupKey, hp, ih (by simpa [keysOf] using h.2)]

/-- Lookup in the in-place update `m.map (replace key s.uri)`. -/
theorem lookupKey_update (m : List (String × GroundingSource)) (s : GroundingSource)
    (k : String) :
    lookupKey (m.map (fun p => if p.1 = s.uri then (s.uri, s) else p)) k =
      if k = s.uri then (if s.uri ∈ keysOf m then some s else none)
      else lookupKey m k := by
  induction m with
  | nil => simp [lookupKey, keysOf]
  | cons p rest ih =>
    simp only [List.map_cons]
    by_cases hp : p.1 = s.uri
    · by_cases hk : k = s.uri
      · subst hk
        simp [lookupKey, keysOf, hp]
      · have h1 : ¬s.uri = k := fun e => hk e.symm
        have h2 : ¬p.1 = k := by rw [hp]; exact h1
        simp [lookupKey, keysOf, hp, hk, h1, h2, ih]
    · by_cases hpk : p.1 = k
      · have hk : ¬k = s.uri := fun e => hp (hpk.trans e)
        simp [lookupKey, keysOf, hp, hpk, hk]
      · have hsu : ¬s.uri = p.1 := fun e => hp e.symm
        by_cases hk : k = s.uri
        · subst hk
          simp [lookupKey, keysOf, hp, hpk, ih, hsu]
          exact if_congr (by simp [hsu]) rfl rfl
        · simp [lookupKey, keysOf, hp, hpk, ih, hsu, hk]

/-- Lookup after a single insertion: the new key maps to the new source, every
other key is unchanged. -/
theorem lookupKey_insertPair (m : List (String × GroundingSource))
    (s : GroundingSource) (k : String) :
    lookupKey (insertPair m s) k = if k = s.uri then some s else lookupKey m k := by
  unfold insertPair
  by_cases hmem : s.uri ∈ keysOf m
  · rw [if_pos hmem, lookupKey_update]
    by_cases hk : k = s.uri <;> simp [hk, hmem]
  · rw [if_neg hmem, lookupKey_append]
    by_cases hk : k = s.uri
    · subst hk
      rw [lookupKey_eq_none m s.uri hmem]
      simp [lookupKey]
    · have h1 : ¬s.uri = k := fun e => hk e.symm
      cases h : lookupKey m k <;> simp [lookupKey, hk, h1, h]

/-- Lookup after a batch insertion: the last occurrence in the batch wins,
otherwise the prior binding is kept. -/
theorem lookupKey_foldl_insertPair (l : List GroundingSource)
    (M : List (String × GroundingSource)) (k : String) :
    lookupKey (List.foldl insertPair M l) k =
      match lastOccur l k with
      | some v => some v
      | none => lookupKey M k := by
  induction l generalizing M with
  | nil => simp [lastOccur]
  | cons s t ih =>
    simp only [List.foldl_cons, lastOccur]
    rw [ih]
    cases h : lastOccur t k with
    | some v => simp
    | none =>
      rw [lookupKey_insertPair]
      by_cases hk : k = s.uri
      · subst hk; simp
      · have h1 : ¬s.uri = k := fun e => hk e.symm
        simp [hk, h1]

/-- The inserted key is in the keys after the insertion. -/
theorem mem_keysOf_insertPair (m : List (String × GroundingSource))
    (s : GroundingSource) : s.uri ∈ keysOf (insertPair m s) := by
  rw [keysOf_insertPair]
  split_ifs with h <;> simp [h]

/-- Keys are preserved by an insertion. -/
theorem keysOf_subset_insertPair (m : List (String × GroundingSource))
    (s : GroundingSource) (k : String) (h : k ∈ keysOf m) :
    k ∈ keysOf (insertPair m s) := by
  rw [keysOf_insertPair]
  split_ifs <;> simp [h]

/-- Keys are preserved by a batch insertion. -/
theorem mem_keysOf_foldl (l : List GroundingSource)
    (M : List (String × GroundingSource)) (k : String) (h : k ∈ keysOf M) :
    k ∈ keysOf (List.foldl insertPair M l) := by
  induction l generalizing M with
  | nil => simpa using h
  | cons s t ih => exact ih _ (keysOf_subset_insertPair _ _ _ h)

/-- The URI of every batch element is in the keys after the batch insertion. -/
theorem uri_mem_keysOf_foldl (l : List GroundingSource)
    (M : List (String × GroundingSource)) (s : GroundingSource) (h : s ∈ l) :
    s.uri ∈ keysOf (List.foldl insertPair M l) := by
  induction l generalizing M with
  | nil => cases h
  | cons a t ih =>
    rcases List.mem_cons.mp h with h1 | h2
    · subst h1
      exact mem_keysOf_foldl t _ _ (mem_keysOf_insertPair _ _)
    · exact ih _ h2

/-- Batch insertion of already-present keys leaves the key sequence
unchanged. -/
theorem keysOf_foldl_of_mem (l : List GroundingSource)
    (M : List (String × GroundingSource)) (h : ∀ s ∈ l, s.uri ∈ keysOf M) :
    keysOf (List.foldl insertPair M l) = keysOf M := by
  induction l generalizing M with
  | nil => rfl
  | cons s t ih =>
    simp only [List.foldl_cons]
    have h1 : s.uri ∈ keysOf M := h s (by simp)
    have hi : keysOf (insertPair M s) = keysOf M := by
      rw [keysOf_insertPair]; simp [h1]
    rw [ih _ (fun a ha => by rw [hi]; exact h a (by simp [ha])), hi]

/-- Insertion preserves distinctness of keys. -/
theorem keysOf_nodup_insertPair (m : List (String × GroundingSource))
    (s : GroundingSource) (h : (keysOf m).Nodup) :
    (keysOf (insertPair m s)).Nodup := by
  rw [keysOf_insertPair]
  split_ifs with hm
  · exact h
  · simp [List.nodup_append, h, hm]

/-- Batch insertion preserves distinctness of keys. -/
theorem keysOf_nodup_foldl (l : List GroundingSource)
    (M : List (String × GroundingSource)) (h : (keysOf M).Nodup) :
    (keysOf (List.foldl insertPair M l)).Nodup := by
  induction l generalizing M with
  | nil => exact h
  | cons s t ih => exact ih _ (keysOf_nodup_insertPair _ _ h)

/-- The map built by the fold has distinct keys. -/
theorem keysOf_buildMap_nodup (l : List GroundingSource) :
    (keysOf (buildMap l)).Nodup :=
  keysOf_nodup_foldl l [] (by simp [keysOf])

/-- Insertion preserves the invariant that each pair's key is its value's
URI. -/
theorem fst_eq_uri_insertPair (m : List (String × GroundingSource))
    (s : GroundingSource) (h : ∀ p ∈ m, p.1 = p.2.uri) :
    ∀ p ∈ insertPair m s, p.1 = p.2.uri := by
  unfold insertPair
  split_ifs with hm
  · intro p hp
    rcases List.mem_map.mp hp with ⟨q, hq, rfl⟩
    by_cases h1 : q.1 = s.uri
    · simp [h1]
    · simpa [h1] using h q hq
  · intro p hp
    rcases List.mem_append.mp hp with h1 | h1
    · exact h p h1
    · simp only [List.mem_singleton] at h1
      subst h1
      rfl

/-- The fold-built map satisfies the key-is-URI invariant. -/
theorem fst_eq_uri_buildMap (l : List GroundingSource) :
    ∀ p ∈ buildMap l, p.1 = p.2.uri := by
  have aux : ∀ (t : List GroundingSource) (M : List (String × GroundingSource)),
      (∀ p ∈ M, p.1 = p.2.uri) → ∀ p ∈ List.foldl insertPair M t, p.1 = p.2.uri := by
    intro t
    induction t with
    | nil => intro M h; exact h
    | cons s r ih =>
      intro M h
      exact ih _ (fst_eq_uri_insertPair _ _ h)
  exact aux l [] (by simp)

/-- Association lists with the same distinct key sequence and the same lookup
function are equal. -/
theorem assoc_ext (M1 : List (String × GroundingSource)) :
    ∀ M2, keysOf M1 = keysOf M2 → (keysOf M1).Nodup →
      (∀ k, lookupKey M1 k = lookupKey M2 k) → M1 = M2 := by
  induction M1 with
  | nil =>
    intro M2 hk _ _
    cases M2 with
    | nil => rfl
    | cons q t => simp [keysOf] at hk
  | cons p t1 ih =>
    intro M2 hk hnd hlk
    cases M2 with
    | nil => simp [keysOf] at hk
    | cons q t2 =>
      simp only [keysOf, List.map_cons, List.cons.injEq] at hk
      obtain ⟨hpq, ht⟩ := hk
      simp only [keysOf, List.map_cons, List.nodup_cons] at hnd
      obtain ⟨hmem, hnd'⟩ := hnd
      have hval : p.2 = q.2 := by
        have h0 := hlk p.1
        rw [show lookupKey (p :: t1) p.1 = some p.2 from by simp [lookupKey]] at h0
        rw [show lookupKey (q :: t2) p.1 = some q.2 from by simp [lookupKey, ← hpq]] at h0
        exact Option.some.inj h0
      have htail : ∀ k, lookupKey t1 k = lookupKey t2 k := by
        intro k
        by_cases hkp : k = p.1
        · subst hkp
          rw [lookupKey_eq_none t1 _ hmem,
            lookupKey_eq_none t2 _ (show p.1 ∉ List.map Prod.fst t2 from ht ▸ hmem)]
        · have h0 := hlk k
          have hp1 : p.1 ≠ k := fun e => hkp e.symm
          have hq1 : q.1 ≠ k := fun e => hkp ((hpq.trans e).symm)
          simpa [lookupKey, hp1, hq1] using h0
      have heq := ih t2 (by simpa [keysOf] using ht) (by simpa [keysOf] using hnd') htail
      calc p :: t1 = (p.1, p.2) :: t1 := by simp
        _ = (q.1, q.2) :: t2 := by rw [hpq, hval, heq]
        _ = q :: t2 := by simp

/-- Re-inserting the values of a well-formed association list into an
accumulator with disjoint keys appends it unchanged. -/
theorem foldl_insertPair_values (M : List (String × GroundingSource)) :
    ∀ acc, (keysOf (acc ++ M)).Nodup → (∀ p ∈ M, p.1 = p.2.uri) →
      List.foldl insertPair acc (M.map Prod.snd) = acc ++ M := by
  induction M with
  | nil => intro acc _ _; simp
  | cons p t ih =>
    intro acc hnd hwf
    simp only [List.map_cons, List.foldl_cons]
    have hp : p.1 = p.2.uri := hwf p (by simp)
    have hmem : p.2.uri ∉ keysOf acc := by
      rw [← hp]
      simp only [keysOf, List.map_append, List.map_cons, List.nodup_append,
        List.nodup_cons, List.disjoint_cons_right] at hnd
      exact fun hc => hnd.2.2.1 hc
    have hins : insertPair acc p.2 = acc ++ [p] := by
      unfold insertPair
      rw [if_neg hmem, ← hp]
    rw [hins, ih (acc ++ [p])
      (by simpa [List.append_assoc] using hnd)
      (fun q hq => hwf q (by simp [hq]))]
    simp

/-- Rebuilding the map from its own value sequence gives the map back. -/
theorem buildMap_dedupe (X : List GroundingSource) :
    buildMap (dedupeByUri X) = buildMap X := by
  have h := foldl_insertPair_values (buildMap X) []
    (by simpa [keysOf] using keysOf_buildMap_nodup X)
    (fst_eq_uri_buildMap X)
  simpa [buildMap, dedupeByUri] using h

/-- Building over an append folds the suffix into the prefix map. -/
theorem buildMap_append (A B : List GroundingSource) :
    buildMap (A ++ B) = List.foldl insertPair (buildMap A) B := by
  simp [buildMap, List.foldl_append]

/-- Batch insertion is absorbed when every key is present and already carries
its last value from the batch. -/
theorem foldl_insertPair_absorb (l : List GroundingSource)
    (M : List (String × GroundingSource))
    (hnd : (keysOf M).Nodup)
    (hmem : ∀ s ∈ l, s.uri ∈ keysOf M)
    (hlast : ∀ k v, lastOccur l k = some v → lookupKey M k = some v) :
    List.foldl insertPair M l = M := by
  have hkeys := keysOf_foldl_of_mem l M hmem
  apply assoc_ext _ M hkeys (by rw [hkeys]; exact hnd)
  intro k
  rw [lookupKey_foldl_insertPair]
  cases h : lastOccur l k with
  | some v => simpa using (hlast k v h).symm
  | none => simp

/-- Merging the same source list into a state that already merged it changes
nothing. -/
theorem mergeSources_idem (prev l : List GroundingSource) :
    mergeSources (mergeSources prev l) l = mergeSources prev l := by
  show dedupeByUri (mergeSources prev l ++ l) = mergeSources prev l
  have hb : buildMap (mergeSources prev l ++ l) = buildMap (prev ++ l) := by
    rw [show mergeSources prev l = dedupeByUri (prev ++ l) from rfl,
      buildMap_append, buildMap_dedupe, ← buildMap_append]
    rw [buildMap_append]
    apply foldl_insertPair_absorb
    · exact keysOf_buildMap_nodup _
    · intro s hs
      rw [buildMap_append]
      exact uri_mem_keysOf_foldl l (buildMap prev) s hs
    · intro k v hv
      rw [buildMap_append, lookupKey_foldl_insertPair, hv]
  show (buildMap (mergeSources prev l ++ l)).map Prod.snd = mergeSources prev l
  rw [hb]
  rfl

/-- C8: citation merge idempotence.  Merging the same source list twice in
succession yields the same sequence as merging it once; in particular merging
`[{uri:A,title:X},{uri:B,title:Y}]` twice gives the same two-entry result as
once, and a later merge of `[{uri:A,title:Z}]` updates A's title to Z without
duplicating A or removing B. -/
theorem C8_merge_idempotent (prev l : List GroundingSource) :
    mergeSources (mergeSources prev l) l = mergeSources prev l
    ∧ mergeSources (mergeSources [] [⟨"X", "A"⟩, ⟨"Y", "B"⟩]) [⟨"X", "A"⟩, ⟨"Y", "B"⟩]
        = mergeSources [] [⟨"X", "A"⟩, ⟨"Y", "B"⟩]
    ∧ mergeSources [] [⟨"X", "A"⟩, ⟨"Y", "B"⟩] = [⟨"X", "A"⟩, ⟨"Y", "B"⟩]
    ∧ mergeSources [⟨"X", "A"⟩, ⟨"Y", "B"⟩] [⟨"Z", "A"⟩] = [⟨"Z", "A"⟩, ⟨"Y", "B"⟩] := by
  exact ⟨mergeSources_idem prev l, mergeSources_idem [] _, by decide, by decide⟩

/-- URIs of the deduplicated values are exactly the keys of the map. -/
theorem dedupe_map_uri (X : List GroundingSource) :
    (dedupeByUri X).map GroundingSource.uri = keysOf (buildMap X) := by
  unfold dedupeByUri keysOf
  rw [List.map_map]
  apply List.map_congr_left
  intro q hq
  exact (fst_eq_uri_buildMap X q hq).symm

/-- Keys of a batch insertion are the first-occurrence fold of the batch URIs
over the initial keys. -/
theorem keysOf_foldl_insertPair (l : List GroundingSource) :
    ∀ M, keysOf (List.foldl insertPair M l) =
      List.foldl (fun acc k => if k ∈ acc then acc else acc ++ [k]) (keysOf M)
        (l.map GroundingSource.uri) := by
  induction l with
  | nil => intro M; rfl
  | cons s t ih =>
    intro M
    simp only [List.foldl_cons, List.map_cons]
    rw [ih]
    congr 1
    exact keysOf_insertPair M s

/-- Keys of the built map are the first-occurrence order of the input URIs. -/
theorem keysOf_buildMap_eq_keyOrder (X : List GroundingSource) :
    keysOf (buildMap X) = keyOrder (X.map GroundingSource.uri) := by
  rw [buildMap, keysOf_foldl_insertPair]
  rfl

/-- Searching the value sequence of a well-formed association list by URI
agrees with the key lookup. -/
theorem findByUri_values (M : List (String × GroundingSource))
    (hwf : ∀ p ∈ M, p.1 = p.2.uri) (k : String) :
    findByUri (M.map Prod.snd) k = lookupKey M k := by
  induction M with
  | nil => rfl
  | cons p t ih =>
    have hp := hwf p (by simp)
    simp only [List.map_cons, findByUri, lookupKey, ← hp]
    by_cases h : p.1 = k
    · simp [h]
    · simp [h, ih (fun q hq => hwf q (by simp [hq]))]

/-- C7 amended: the merged citation sequence has exactly one entry per
distinct URI; the entry order is the order of first occurrence of each URI in
the combined input (a reappearing URI keeps its original position), while the
stored entry for each URI is its last occurrence in the combined input (a
reappearing URI's title is updated to the later title). -/
theorem C7_dedup_first_position (p n : List GroundingSource) :
    ((mergeSources p n).map GroundingSource.uri).Nodup
    ∧ (mergeSources p n).map GroundingSource.uri
        = keyOrder ((p ++ n).map GroundingSource.uri)
    ∧ (∀ k, findByUri (mergeSources p n) k = lastOccur (p ++ n) k) := by
  refine ⟨?_, ?_, ?_⟩
  · rw [show mergeSources p n = dedupeByUri (p ++ n) from rfl, dedupe_map_uri]
    exact keysOf_buildMap_nodup _
  · rw [show mergeSources p n = dedupeByUri (p ++ n) from rfl, dedupe_map_uri,
      keysOf_buildMap_eq_keyOrder]
  · intro k
    rw [show mergeSources p n = dedupeByUri (p ++ n) from rfl, dedupeByUri,
      findByUri_values _ (fst_eq_uri_buildMap _) k, buildMap,
      lookupKey_foldl_insertPair]
    cases h : lastOccur (p ++ n) k <;> simp [lookupKey]

/-! Grounding-chunk filtering lemmas. -/

/-- Chunks without a `web` field do not contribute: folding over the filtered
chunk list gives the same accumulation. -/
theorem chunkStep_foldl_filter (chunks : List GroundingChunk) :
    ∀ acc, List.foldl chunkStep acc chunks
      = List.foldl chunkStep acc (chunks.filter fun c => c.web.isSome) := by
  induction chunks with
  | nil => intro acc; rfl
  | cons c rest ih =>
    intro acc
    cases hw : c.web with
    | none => simp [List.filter_cons, chunkStep, hw, ih]
    | some w => simp [List.filter_cons, chunkStep, hw, ih]

/-- A chunk list with no web chunks accumulates nothing. -/
theorem chunkStep_foldl_none (chunks : List GroundingChunk)
    (hno : ∀ c ∈ chunks, c.web = none) :
    ∀ acc, List.foldl chunkStep acc chunks = acc := by
  induction chunks with
  | nil => intro acc; rfl
  | cons c rest ih =>
    intro acc
    have hc := hno c (by simp)
    simp only [List.foldl_cons, chunkStep, hc]
    exact ih (fun d hd => hno d (by simp [hd])) acc

/-- C10: grounding-chunk filtering and title defaulting.  Chunks lacking a
`web` field never enter the citation sequence (the extraction equals the
extraction over the web-only filter); a web chunk contributes its URI
unchanged with a missing or empty title replaced by "Untitled Source"; and a
message whose chunk list yields no web chunks leaves the citation sequence
unchanged. -/
theorem C10_grounding_filter (prev : List GroundingSource)
    (chunks chunks' : List GroundingChunk) (w : WebInfo)
    (hno : ∀ c ∈ chunks', c.web = none) :
    chunkSources chunks = chunkSources (chunks.filter fun c => c.web.isSome)
    ∧ chunkSources [⟨some w⟩] = [⟨webTitle w.title, w.uri⟩]
    ∧ webTitle none = "Untitled Source"
    ∧ webTitle (some "") = "Untitled Source"
    ∧ groundingStep prev chunks' = prev := by
  refine ⟨chunkStep_foldl_filter chunks [], rfl, rfl, rfl, ?_⟩
  have h0 : chunkSources chunks' = [] := chunkStep_foldl_none chunks' hno []
  simp [groundingStep, h0]

/-- Witness for C10 at a concrete chunk list: one web chunk with an empty
title, one chunk without web data, and a web-free message. -/
theorem C10_grounding_filter_witness :
    chunkSources [⟨some ⟨some "t", "u"⟩⟩, ⟨none⟩]
      = chunkSources ([⟨some ⟨some "t", "u"⟩⟩, ⟨none⟩].filter fun c => c.web.isSome)
    ∧ chunkSources [⟨some ⟨some "", "u2"⟩⟩] = [⟨webTitle (some ""), "u2"⟩]
    ∧ webTitle none = "Untitled Source"
    ∧ webTitle (some "") = "Untitled Source"
    ∧ groundingStep [⟨"T", "U"⟩] [⟨none⟩] = [⟨"T", "U"⟩] :=
  C10_grounding_filter [⟨"T", "U"⟩] [⟨some ⟨some "t", "u"⟩⟩, ⟨none⟩] [⟨none⟩]
    ⟨some "", "u2"⟩ (by intro c hc; simp at hc; subst hc; rfl)

/-! PCM codec theorems. -/

/-- Per-sample round trip: for a sample in `[-1, 1]`, decoding the encoded
value differs from the sample by at most one 16-bit quantization step. -/
theorem decode_encode_close (x : ℚ) (h1 : -1 ≤ x) (h2 : x ≤ 1) :
    |decodeSample (encodeSample x) - x| ≤ 1 / 32768 := by
  unfold encodeSample decodeSample
  have hc : max (-1) (min 1 x) = x := by
    rw [min_eq_right h2, max_eq_right h1]
  rw [hc]
  have hfl : (-32768 : Int) ≤ ⌊x * 32768⌋ := by
    apply Int.le_floor.mpr
    push_cast
    nlinarith
  rw [max_eq_right (le_min (by norm_num) hfl)]
  have hle : (↑⌊x * 32768⌋ : ℚ) ≤ x * 32768 := Int.floor_le _
  have hgt : x * 32768 < ↑⌊x * 32768⌋ + 1 := Int.lt_floor_add_one _
  by_cases hF : ⌊x * 32768⌋ ≤ 32767
  · rw [min_eq_right hF]
    have e : (↑⌊x * 32768⌋ : ℚ) / 32768 - x
        = ((↑⌊x * 32768⌋ : ℚ) - x * 32768) / 32768 := by
      ring
    rw [e, abs_div, abs_of_pos (show (0 : ℚ) < 32768 by norm_num)]
    have habs : |(↑⌊x * 32768⌋ : ℚ) - x * 32768| ≤ 1 :=
      abs_le.mpr ⟨by linarith, by linarith⟩
    exact (div_le_div_iff_of_pos_right (by norm_num)).mpr habs
  · have h32 : (32768 : Int) ≤ ⌊x * 32768⌋ := by omega
    have hx1 : x = 1 := by
      have hub : x * 32768 ≤ 32768 := by nlinarith
      have hlb : (32768 : ℚ) ≤ x * 32768 := by
        calc (32768 : ℚ) = ((32768 : Int) : ℚ) := by norm_num
          _ ≤ (↑⌊x * 32768⌋ : ℚ) := by exact_mod_cast h32
          _ ≤ x * 32768 := hle
      nlinarith
    subst hx1
    have hfv : ⌊(1 : ℚ) * 32768⌋ = 32768 := by
      rw [one_mul, show (32768 : ℚ) = ((32768 : Int) : ℚ) by norm_num]
      exact Int.floor_intCast 32768
    rw [hfv, min_eq_left (by norm_num : (32767 : Int) ≤ 32768)]
    have e2 : ((32767 : Int) : ℚ) / 32768 - 1 = -(1 / 32768) := by norm_num
    rw [e2, abs_neg, abs_of_nonneg (by norm_num : (0 : ℚ) ≤ 1 / 32768)]

/-- C9: codec round trip (modelled from the spec, the `./utils` module being
absent from the source tree).  For every sequence of samples with values in
`[-1, 1]`, decoding the encoded frame reconstructs each sample within 16-bit
quantization error (one least-significant step, `1/32768`), and encoding
clamps: any sample encodes identically to its clamp to `[-1, 1]`.  Both
directions are pure functions of their input. -/
theorem C9_codec_roundtrip (samples : List ℚ) (x : ℚ)
    (hs : ∀ y ∈ samples, -1 ≤ y ∧ y ≤ 1) :
    List.Forall₂ (fun y z => |y - z| ≤ 1 / 32768)
      (decodeToBuffer (encodeFrame samples)) samples
    ∧ encodeSample x = encodeSample (max (-1) (min 1 x)) := by
  constructor
  · unfold decodeToBuffer encodeFrame
    rw [List.map_map]
    induction samples with
    | nil => exact List.Forall₂.nil
    | cons a t ih =>
      have ha := hs a (by simp)
      exact List.Forall₂.cons (decode_encode_close a ha.1 ha.2)
        (ih (fun y hy => hs y (by simp [hy])))
  · unfold encodeSample
    have h1 : min 1 (max (-1) (min 1 x)) = max (-1) (min 1 x) :=
      min_eq_right (max_le (by norm_num) (min_le_left _ _))
    rw [h1, ← max_assoc, max_self]

/-- Witness for C9 at a concrete frame containing both range endpoints. -/
theorem C9_codec_roundtrip_witness :
    List.Forall₂ (fun y z => |y - z| ≤ 1 / 32768)
      (decodeToBuffer (encodeFrame [1, -1, 1/2, 0])) [1, -1, 1/2, 0]
    ∧ encodeSample 2 = encodeSample (max (-1) (min 1 2)) :=
  C9_codec_roundtrip [1, -1, 1/2, 0] 2 (by
    intro y hy
    simp only [List.mem_cons, List.not_mem_nil, or_false] at hy
    rcases hy with h | h | h | h <;> subst h <;> norm_num)

end VoiceAssistant
